import Mathlib

/-!
Verification of the demand-scheduling model builder (`multi_bounded.py`).

The program builds a Pyomo model for scheduling EV-cohort charging over a
horizon of `N_HOURS` hours.  We embed, over exact rationals:

* the cohort configuration record (`S_0`, `S_max`, `R_max`, `H`, `P`);
* the hour-range validation loop (`main`, the `for ev in EV_CONFIG` check
  using Python `max`/`min`, which raise `ValueError` on an empty sequence
  and `SystemExit` with a fixed message on an out-of-range hour);
* the constraint list built by `main` (boundary conditions, per-hour rate
  window, storage bound, storage recurrence, and price-feedback equation),
  kept as a syntactic list of constraints so that statements about which
  constraints the model contains can be proved; the boundary loop models
  the `ValueError` from `max()` on an empty availability list and the
  `KeyError` raised by Pyomo when the boundary hour `max(H) + 1` falls
  outside the storage variable's declared index range `0..N`;
* satisfaction of a constraint by an assignment of the `S`, `R`, `P`
  decision variables, together with the variable-domain restrictions from
  the Pyomo declarations (`S`, `P` nonnegative);
* the result extraction of `readout` (per-cohort total cost, net energy,
  and average price per unit energy, where NumPy float division by zero
  produces a non-finite value, modelled as `Option.none`).

Base prices are kept as an arbitrary function parameter (`base : ℕ → ℚ`):
the price model is an exchangeable input and no claim depends on the
concrete Gaussian shape computed in the script.
-/

namespace DemandScheduling

/-- One EV cohort's configuration, one entry of `EV_CONFIG`:
initial storage `S_0`, capacity `S_max`, symmetric rate bound `R_max`,
hours available to (dis)charge `H`, and price-influence coefficient `P`. -/
structure CohortConfig where
  S_0 : ℚ
  S_max : ℚ
  R_max : ℚ
  H : List ℤ
  P : ℚ
deriving DecidableEq

/-- Python exceptions raised by `main` before or during model construction. -/
inductive PyError where
  /-- `raise SystemExit(msg)` — the invalid-configuration failure. -/
  | systemExit (msg : String)
  /-- `ValueError`, raised by Python `max()`/`min()` on an empty sequence. -/
  | valueError
  /-- `KeyError`, raised by Pyomo when an indexed variable is accessed at an
  index outside its declared index set. -/
  | keyError
deriving DecidableEq

/-- The fixed message of the `SystemExit` raised on an out-of-range hour. -/
def hourMsg : String :=
  "Hours specified for EV (dis)charge must be between zero and N_HOURS. Modify the EV config and rerun."

/-- Python `max` over a sequence: `none` models the `ValueError` raised on
an empty sequence. -/
def pyMax : List ℤ → Option ℤ
  | [] => none
  | x :: xs => some (xs.foldl max x)

/-- Python `min` over a sequence: `none` models the `ValueError` raised on
an empty sequence. -/
def pyMin : List ℤ → Option ℤ
  | [] => none
  | x :: xs => some (xs.foldl min x)

/-- The body of the validation loop for one cohort:
`if max(ev["H"]) >= N_HOURS or min(ev["H"]) < 0: raise SystemExit(...)`.
Python evaluates `max` first, so an empty `H` raises `ValueError`. -/
def checkCohort (N : ℕ) (ev : CohortConfig) : Except PyError Unit :=
  match pyMax ev.H, pyMin ev.H with
  | some mx, some mn =>
      if (N : ℤ) ≤ mx ∨ mn < 0 then .error (.systemExit hourMsg) else .ok ()
  | _, _ => .error .valueError

/-- The validation loop `for ev in EV_CONFIG: ...` of `main`: the first
raised exception aborts the run. -/
def validate (N : ℕ) : List CohortConfig → Except PyError Unit
  | [] => .ok ()
  | ev :: rest => do
      checkCohort N ev
      validate N rest

/-- One constraint added to `model.cons`.  Time indices are hours;
`i` is the cohort index in `EV_CONFIG`. -/
inductive Constraint where
  /-- `model.S[i, t] == v` (the two boundary conditions). -/
  | eqS (i t : ℕ) (v : ℚ)
  /-- `model.R[i, t] == 0` (rate forced to zero outside the window). -/
  | eqRZero (i t : ℕ)
  /-- `pyo.inequality(-m, model.R[i, t], m)`. -/
  | rateBound (i t : ℕ) (m : ℚ)
  /-- `pyo.inequality(0, model.S[i, t], m)`. -/
  | storBound (i t : ℕ) (m : ℚ)
  /-- `model.S[i, t+1] == model.S[i, t] + model.R[i, t]`. -/
  | recur (i t : ℕ)
  /-- `model.P[t] == b + sum(w[i] * model.R[i, t] for i)`. -/
  | priceEq (t : ℕ) (b : ℚ) (w : List ℚ)
deriving DecidableEq

/-- The two boundary conditions added for cohort `i`:
`model.S[i, 0] == ev["S_0"]` and `model.S[i, max(ev["H"]) + 1] == ev["S_max"]`.
`max` on an empty `H` raises `ValueError`; when the hour index
`max(ev["H"]) + 1` lies outside the storage variable's declared index range
`0..N`, the lookup `model.S[i, max(ev["H"]) + 1]` raises `KeyError`. -/
def cohortBoundary (N i : ℕ) (ev : CohortConfig) : Except PyError (List Constraint) :=
  match pyMax ev.H with
  | none => .error .valueError
  | some m =>
      if m + 1 < 0 ∨ (N : ℤ) < m + 1 then .error .keyError
      else .ok [.eqS i 0 ev.S_0, .eqS i (m + 1).toNat ev.S_max]

/-- The boundary-condition loop `for i, ev in enumerate(EV_CONFIG)` starting
at cohort index `j`. -/
def boundaryConsAux (N j : ℕ) : List CohortConfig → Except PyError (List Constraint)
  | [] => .ok []
  | ev :: rest => do
      let b ← cohortBoundary N j ev
      let r ← boundaryConsAux N (j + 1) rest
      pure (b ++ r)

/-- All boundary conditions of the model. -/
def boundaryCons (N : ℕ) (cfg : List CohortConfig) : Except PyError (List Constraint) :=
  boundaryConsAux N 0 cfg

/-- The rate constraint for cohort `i` at hour `t`: rate forced to zero
outside the availability window, bounded by `±R_max` inside it. -/
def rateCons (i : ℕ) (ev : CohortConfig) (t : ℕ) : Constraint :=
  if (t : ℤ) ∈ ev.H then .rateBound i t ev.R_max else .eqRZero i t

/-- The three constraints added for cohort `i` at hour `t` inside the
per-hour loop: rate window, storage bound, storage update rule. -/
def cohortHourCons (i : ℕ) (ev : CohortConfig) (t : ℕ) : List Constraint :=
  [rateCons i ev t, .storBound i t ev.S_max, .recur i t]

/-- The inner `for i, ev in enumerate(EV_CONFIG)` loop at hour `t`,
starting at cohort index `j`. -/
def cohortsHourConsAux (j t : ℕ) : List CohortConfig → List Constraint
  | [] => []
  | ev :: rest => cohortHourCons j ev t ++ cohortsHourConsAux (j + 1) t rest

/-- All constraints added at hour `t`: the per-cohort constraints followed
by the price-feedback equation
`model.P[t] == base_prices[t] + sum(ev["P"] * model.R[i, t] for i, ev ...)`. -/
def hourCons (cfg : List CohortConfig) (base : ℕ → ℚ) (t : ℕ) : List Constraint :=
  cohortsHourConsAux 0 t cfg ++ [.priceEq t (base t) (cfg.map (·.P))]

/-- The per-hour constraint loop `for t in hours`. -/
def allHourCons (N : ℕ) (cfg : List CohortConfig) (base : ℕ → ℚ) : List Constraint :=
  (List.range N).flatMap (hourCons cfg base)

/-- The full constraint list built by `main` (boundary loop, then per-hour
loop), in source order.  Fails with `ValueError` when the first failing
cohort's `H` is empty (from `max(ev["H"])` in the boundary condition), and
with `KeyError` when that cohort's boundary index `max(ev["H"]) + 1` falls
outside the storage index range. -/
def buildCons (N : ℕ) (cfg : List CohortConfig) (base : ℕ → ℚ) :
    Except PyError (List Constraint) := do
  let b ← boundaryCons N cfg
  pure (b ++ allHourCons N cfg base)

/-- `main` up to the solver call: validation, then model construction. -/
def mainModel (N : ℕ) (cfg : List CohortConfig) (base : ℕ → ℚ) :
    Except PyError (List Constraint) := do
  validate N cfg
  buildCons N cfg base

/-- An assignment of values to the decision variables `S`, `R`, `P`. -/
structure Assign where
  S : ℕ → ℕ → ℚ
  R : ℕ → ℕ → ℚ
  P : ℕ → ℚ

/-- `sum(w[i] * f(i) for i)`: the influence-weighted sum of the
price-feedback equation. -/
def weightedSum : List ℚ → (ℕ → ℚ) → ℚ
  | [], _ => 0
  | w :: ws, f => w * f 0 + weightedSum ws (fun i => f (i + 1))

/-- Satisfaction of one constraint by an assignment. -/
def Constraint.holds (σ : Assign) : Constraint → Prop
  | .eqS i t v => σ.S i t = v
  | .eqRZero i t => σ.R i t = 0
  | .rateBound i t m => -m ≤ σ.R i t ∧ σ.R i t ≤ m
  | .storBound i t m => 0 ≤ σ.S i t ∧ σ.S i t ≤ m
  | .recur i t => σ.S i (t + 1) = σ.S i t + σ.R i t
  | .priceEq t b w => σ.P t = b + weightedSum w (fun i => σ.R i t)

instance (σ : Assign) (c : Constraint) : Decidable (c.holds σ) :=
  match c with
  | .eqS i t v => inferInstanceAs (Decidable (σ.S i t = v))
  | .eqRZero i t => inferInstanceAs (Decidable (σ.R i t = 0))
  | .rateBound _ _ _ => inferInstanceAs (Decidable (_ ∧ _))
  | .storBound _ _ _ => inferInstanceAs (Decidable (_ ∧ _))
  | .recur i t => inferInstanceAs (Decidable (σ.S i (t + 1) = _))
  | .priceEq t _ _ => inferInstanceAs (Decidable (σ.P t = _))

/-- The variable-domain restrictions of the Pyomo declarations: `S` ranges
over `NonNegativeReals` on hours `0..N` for the `k` cohorts, `P` over
`NonNegativeReals` on hours `0..N-1` (`R` ranges over all `Reals`). -/
def domainOK (N k : ℕ) (σ : Assign) : Prop :=
  (∀ i < k, ∀ t ≤ N, 0 ≤ σ.S i t) ∧ (∀ t < N, 0 ≤ σ.P t)

instance (N k : ℕ) (σ : Assign) : Decidable (domainOK N k σ) :=
  inferInstanceAs (Decidable (_ ∧ _))

/-- An assignment is feasible for a constraint list when it respects the
variable domains and satisfies every constraint. -/
def FeasibleFor (cons : List Constraint) (N k : ℕ) (σ : Assign) : Prop :=
  domainOK N k σ ∧ ∀ c ∈ cons, c.holds σ

instance (cons : List Constraint) (N k : ℕ) (σ : Assign) :
    Decidable (FeasibleFor cons N k σ) :=
  inferInstanceAs (Decidable (_ ∧ _))

/-- A feasible solution of the model built for `N`, `cfg`, `base`. -/
def Feasible (N : ℕ) (cfg : List CohortConfig) (base : ℕ → ℚ) (σ : Assign) : Prop :=
  ∃ cons, buildCons N cfg base = .ok cons ∧ FeasibleFor cons N cfg.length σ

/-! ## Result extraction (`readout`) -/

/-- NumPy float division: division by zero emits a warning and produces a
non-finite value (`inf`/`nan`), modelled as `none`. -/
def npDiv (a b : ℚ) : Option ℚ :=
  if b = 0 then none else some (a / b)

/-- `costs.sum(axis=1)` for cohort `i`: `sum(R_sol[i][t] * P_sol[t] for t)`,
the cohort's realized total cost. -/
def totalCostOf (N : ℕ) (Psol : ℕ → ℚ) (Rsol : ℕ → ℕ → ℚ) (i : ℕ) : ℚ :=
  ((List.range N).map fun t => Rsol i t * Psol t).sum

/-- `R_sol.sum(axis=1)` for cohort `i`: the cohort's net delivered energy. -/
def netEnergyOf (N : ℕ) (Rsol : ℕ → ℕ → ℚ) (i : ℕ) : ℚ :=
  ((List.range N).map fun t => Rsol i t).sum

/-- `ev_avg_price[i] = ev_tot_cost[i] / R_sol.sum(axis=1)[i]`: average price
per unit energy, undefined when the net energy is zero. -/
def avgPriceOf (N : ℕ) (Psol : ℕ → ℚ) (Rsol : ℕ → ℕ → ℚ) (i : ℕ) : Option ℚ :=
  npDiv (totalCostOf N Psol Rsol i) (netEnergyOf N Rsol i)

/-- The per-cohort figures printed by `readout`. -/
structure CohortResult where
  totCost : ℚ
  avgPrice : Option ℚ
deriving DecidableEq

/-- `readout`'s per-cohort summary for the `k` cohorts. -/
def extractResults (N k : ℕ) (Psol : ℕ → ℚ) (Rsol : ℕ → ℕ → ℚ) :
    List CohortResult :=
  (List.range k).map fun i =>
    ⟨totalCostOf N Psol Rsol i, avgPriceOf N Psol Rsol i⟩

/-! ## Realized price and cost for a fixed rate schedule -/

/-- The price at hour `t` determined by the price-feedback equation for a
fixed rate schedule `R`. -/
def realizedPrice (cfg : List CohortConfig) (base : ℕ → ℚ) (R : ℕ → ℕ → ℚ)
    (t : ℕ) : ℚ :=
  base t + weightedSum (cfg.map (·.P)) (fun i => R i t)

/-- Cohort `i`'s realized total cost for a fixed rate schedule, with the
price given by the price-feedback equation. -/
def realizedCost (N : ℕ) (cfg : List CohortConfig) (base : ℕ → ℚ)
    (R : ℕ → ℕ → ℚ) (i : ℕ) : ℚ :=
  ((List.range N).map fun t => realizedPrice cfg base R t * R i t).sum

/-- The number of hours of the horizon in cohort `ev`'s availability
window; for a validated configuration this is the cardinality of the
availability set. -/
def numAvail (N : ℕ) (ev : CohortConfig) : ℕ :=
  ((List.range N).filter fun t : ℕ => decide ((t : ℤ) ∈ ev.H)).length

/-- Whether a constraint is a storage equality (boundary condition) for
cohort `q`. -/
def eqSOf (q : ℕ) : Constraint → Bool
  | .eqS p _ _ => p == q
  | _ => false

/-- The hour indices of the decision variables mentioned by a constraint. -/
def timesOf : Constraint → List ℕ
  | .eqS _ t _ => [t]
  | .eqRZero _ t => [t]
  | .rateBound _ t _ => [t]
  | .storBound _ t _ => [t]
  | .recur _ t => [t, t + 1]
  | .priceEq t _ _ => [t]

/-- `ev` with its price-influence coefficient replaced by `q` (all other
fields unchanged). -/
def setP (ev : CohortConfig) (q : ℚ) : CohortConfig :=
  ⟨ev.S_0, ev.S_max, ev.R_max, ev.H, q⟩

/-! ## Concrete example data -/

/-- A flat base-price curve. -/
def base1 : ℕ → ℚ := fun _ => 1

/-- A one-cohort configuration entry: `S_0 = 0`, `S_max = 1`, `R_max = 1`,
available in hour 0 only, no price influence. -/
def c1 : CohortConfig := ⟨0, 1, 1, [0], 0⟩

/-- The constraint list built for horizon 2, cohorts `[c1]`, base `base1`. -/
def consW : List Constraint :=
  [.eqS 0 0 0, .eqS 0 1 1,
   .rateBound 0 0 1, .storBound 0 0 1, .recur 0 0, .priceEq 0 1 [0],
   .eqRZero 0 1, .storBound 0 1 1, .recur 0 1, .priceEq 1 1 [0]]

/-- A feasible assignment for the `consW` model: charge fully in hour 0. -/
def σ1 : Assign :=
  ⟨fun _ t => if t = 0 then 0 else 1, fun _ t => if t = 0 then 1 else 0,
   fun _ => 1⟩

/-- A cohort that cannot reach full charge: one available hour, unit rate
bound, but 3 kWh of headroom. -/
def c8 : CohortConfig := ⟨0, 3, 1, [0], 0⟩

/-- The all-zero assignment. -/
def σ0 : Assign := ⟨fun _ _ => 0, fun _ _ => 0, fun _ => 0⟩

/-- A cohort whose availability window lies inside `[0, 24)`. -/
def goodC : CohortConfig := ⟨0, 5, 1, [0, 1], 0⟩

/-- A cohort with an out-of-range availability hour (30 ≥ 24). -/
def badC : CohortConfig := ⟨0, 5, 1, [30], 0⟩

/-- A cohort with an empty availability list. -/
def emptyC : CohortConfig := ⟨0, 5, 1, [], 0⟩

/-- A constant unit rate schedule. -/
def R7 : ℕ → ℕ → ℚ := fun _ _ => 1

/-- A rate schedule delivering zero net energy. -/
def Rsol0 : ℕ → ℕ → ℚ := fun _ _ => 0

/-! ## Facts about `pyMax` and `pyMin` -/

theorem foldl_max_le_iff {xs : List ℤ} {a b : ℤ} :
    xs.foldl max a ≤ b ↔ a ≤ b ∧ ∀ x ∈ xs, x ≤ b := by
  induction xs generalizing a with
  | nil => simp
  | cons y ys ih =>
      simp only [List.foldl_cons, ih, max_le_iff, List.mem_cons]
      constructor
      · rintro ⟨⟨h1, h2⟩, h3⟩
        exact ⟨h1, fun x hx => hx.elim (fun h => h ▸ h2) (h3 x)⟩
      · rintro ⟨h1, h2⟩
        exact ⟨⟨h1, h2 y (Or.inl rfl)⟩, fun x hx => h2 x (Or.inr hx)⟩

theorem le_foldl_min_iff {xs : List ℤ} {a b : ℤ} :
    b ≤ xs.foldl min a ↔ b ≤ a ∧ ∀ x ∈ xs, b ≤ x := by
  induction xs generalizing a with
  | nil => simp
  | cons y ys ih =>
      simp only [List.foldl_cons, ih, le_min_iff, List.mem_cons]
      constructor
      · rintro ⟨⟨h1, h2⟩, h3⟩
        exact ⟨h1, fun x hx => hx.elim (fun h => h ▸ h2) (h3 x)⟩
      · rintro ⟨h1, h2⟩
        exact ⟨⟨h1, h2 y (Or.inl rfl)⟩, fun x hx => h2 x (Or.inr hx)⟩

theorem pyMax_isSome {xs : List ℤ} (h : xs ≠ []) : ∃ m, pyMax xs = some m := by
  cases xs with
  | nil => exact absurd rfl h
  | cons y ys => exact ⟨ys.foldl max y, rfl⟩

theorem le_pyMax {xs : List ℤ} {m x : ℤ} (hm : pyMax xs = some m)
    (hx : x ∈ xs) : x ≤ m := by
  cases xs with
  | nil => cases hx
  | cons y ys =>
      simp only [pyMax, Option.some.injEq] at hm
      subst hm
      have hmax : ys.foldl max y ≤ ys.foldl max y := le_refl _
      rw [foldl_max_le_iff] at hmax
      rcases List.mem_cons.mp hx with h | h
      · exact h ▸ hmax.1
      · exact hmax.2 x h

theorem pyMax_mem {xs : List ℤ} {m : ℤ} (hm : pyMax xs = some m) : m ∈ xs := by
  cases xs with
  | nil => cases hm
  | cons y ys =>
      simp only [pyMax, Option.some.injEq] at hm
      subst hm
      induction ys generalizing y with
      | nil => simp
      | cons z zs ih =>
          simp only [List.foldl_cons]
          rcases List.mem_cons.mp (ih (max y z)) with h | h
          · rcases max_choice y z with hc | hc <;> rw [h, hc]
            · exact List.mem_cons_self y (z :: zs)
            · exact List.mem_cons.mpr (Or.inr (List.mem_cons_self z zs))
          · exact List.mem_cons.mpr (Or.inr (List.mem_cons.mpr (Or.inr h)))

theorem pyMin_le {xs : List ℤ} {m x : ℤ} (hm : pyMin xs = some m)
    (hx : x ∈ xs) : m ≤ x := by
  cases xs with
  | nil => cases hx
  | cons y ys =>
      simp only [pyMin, Option.some.injEq] at hm
      subst hm
      have hmin : ys.foldl min y ≤ ys.foldl min y := le_refl _
      rw [le_foldl_min_iff] at hmin
      rcases List.mem_cons.mp hx with h | h
      · exact h ▸ hmin.1
      · exact hmin.2 x h

theorem pyMin_mem {xs : List ℤ} {m : ℤ} (hm : pyMin xs = some m) : m ∈ xs := by
  cases xs with
  | nil => cases hm
  | cons y ys =>
      simp only [pyMin, Option.some.injEq] at hm
      subst hm
      induction ys generalizing y with
      | nil => simp
      | cons z zs ih =>
          simp only [List.foldl_cons]
          rcases List.mem_cons.mp (ih (min y z)) with h | h
          · rcases min_choice y z with hc | hc <;> rw [h, hc]
            · exact List.mem_cons_self y (z :: zs)
            · exact List.mem_cons.mpr (Or.inr (List.mem_cons_self z zs))
          · exact List.mem_cons.mpr (Or.inr (List.mem_cons.mpr (Or.inr h)))

/-! ## Validation characterization -/

theorem checkCohort_ok_iff {N : ℕ} {ev : CohortConfig} (hne : ev.H ≠ []) :
    checkCohort N ev = .ok () ↔ ∀ t ∈ ev.H, 0 ≤ t ∧ t < (N : ℤ) := by
  obtain ⟨mx, hmx⟩ := pyMax_isSome hne
  obtain ⟨mn, hmn⟩ : ∃ m, pyMin ev.H = some m := by
    cases h : ev.H with
    | nil => exact absurd h hne
    | cons y ys => exact ⟨ys.foldl min y, rfl⟩
  rw [checkCohort, hmx, hmn]
  by_cases hc : (N : ℤ) ≤ mx ∨ mn < 0
  · simp only [if_pos hc]
    constructor
    · intro h; cases h
    · intro hall
      rcases hc with h | h
      · have := (hall mx (pyMax_mem hmx)).2; omega
      · have := (hall mn (pyMin_mem hmn)).1; omega
  · simp only [if_neg hc]
    push_neg at hc
    constructor
    · intro _ t ht
      exact ⟨le_trans hc.2 (pyMin_le hmn ht), lt_of_le_of_lt (le_pyMax hmx ht) hc.1⟩
    · intro _; trivial

theorem checkCohort_fail {N : ℕ} {ev : CohortConfig} (hne : ev.H ≠ [])
    (h : checkCohort N ev ≠ .ok ()) :
    checkCohort N ev = .error (.systemExit hourMsg) := by
  obtain ⟨mx, hmx⟩ := pyMax_isSome hne
  obtain ⟨mn, hmn⟩ : ∃ m, pyMin ev.H = some m := by
    cases hh : ev.H with
    | nil => exact absurd hh hne
    | cons y ys => exact ⟨ys.foldl min y, rfl⟩
  simp only [checkCohort, hmx, hmn] at h ⊢
  by_cases hc : (N : ℤ) ≤ mx ∨ mn < 0
  · rw [if_pos hc]
  · exact absurd (if_neg hc) h

theorem validate_ok_iff {N : ℕ} {cfg : List CohortConfig}
    (hne : ∀ ev ∈ cfg, ev.H ≠ []) :
    validate N cfg = .ok () ↔ ∀ ev ∈ cfg, ∀ t ∈ ev.H, 0 ≤ t ∧ t < (N : ℤ) := by
  induction cfg with
  | nil => simp [validate]
  | cons ev rest ih =>
      have hne0 : ev.H ≠ [] := hne ev (List.mem_cons_self _ _)
      have hner : ∀ e ∈ rest, e.H ≠ [] := fun e he => hne e (List.mem_cons.mpr (Or.inr he))
      simp only [validate, bind, Except.bind]
      cases hc : checkCohort N ev with
      | error e =>
          simp only [List.mem_cons]
          constructor
          · intro h; cases h
          · intro hall
            have : checkCohort N ev = .ok () :=
              (checkCohort_ok_iff hne0).mpr (hall ev (Or.inl rfl))
            rw [hc] at this; cases this
      | ok u =>
          cases u
          rw [ih hner]
          have hok : ∀ t ∈ ev.H, 0 ≤ t ∧ t < (N : ℤ) :=
            (checkCohort_ok_iff hne0).mp hc
          simp only [List.mem_cons]
          constructor
          · intro h e he
            rcases he with rfl | he
            · exact hok
            · exact h e he
          · intro h e he
            exact h e (Or.inr he)

theorem validate_fail {N : ℕ} {cfg : List CohortConfig}
    (hne : ∀ ev ∈ cfg, ev.H ≠ []) (h : validate N cfg ≠ .ok ()) :
    validate N cfg = .error (.systemExit hourMsg) := by
  induction cfg with
  | nil => exact absurd rfl h
  | cons ev rest ih =>
      have hne0 : ev.H ≠ [] := hne ev (List.mem_cons_self _ _)
      have hner : ∀ e ∈ rest, e.H ≠ [] := fun e he => hne e (List.mem_cons.mpr (Or.inr he))
      simp only [validate, bind, Except.bind] at h ⊢
      cases hc : checkCohort N ev with
      | error e =>
          have := checkCohort_fail hne0 (by rw [hc]; intro hcon; cases hcon)
          rw [hc] at this
          rw [this]
      | ok u =>
          cases u
          rw [hc] at h
          exact ih hner h

theorem validate_ok_mem {N : ℕ} {cfg : List CohortConfig} {ev : CohortConfig}
    (hv : validate N cfg = .ok ()) (hmem : ev ∈ cfg) :
    ev.H ≠ [] ∧ ∀ t ∈ ev.H, 0 ≤ t ∧ t < (N : ℤ) := by
  induction cfg with
  | nil => cases hmem
  | cons e rest ih =>
      simp only [validate, bind, Except.bind] at hv
      cases hc : checkCohort N e with
      | error err => rw [hc] at hv; cases hv
      | ok u =>
          cases u
          rw [hc] at hv
          rcases List.mem_cons.mp hmem with rfl | hmem'
          · have hne : ev.H ≠ [] := by
              intro hnil
              rw [checkCohort, hnil] at hc
              cases hc
            exact ⟨hne, (checkCohort_ok_iff hne).mp hc⟩
          · exact ih hv hmem'

/-! ## Structure of the built constraint list -/

theorem cohortBoundary_ok {N i : ℕ} {ev : CohortConfig} {b : List Constraint}
    (h : cohortBoundary N i ev = .ok b) :
    ∃ m, pyMax ev.H = some m ∧ 0 ≤ m + 1 ∧ m + 1 ≤ (N : ℤ) ∧
      b = [.eqS i 0 ev.S_0, .eqS i (m + 1).toNat ev.S_max] := by
  unfold cohortBoundary at h
  cases hm : pyMax ev.H with
  | none =>
      rw [hm] at h
      cases h
  | some m =>
      rw [hm] at h
      replace h : (if m + 1 < 0 ∨ (N : ℤ) < m + 1 then
          (Except.error PyError.keyError : Except PyError (List Constraint))
        else Except.ok [Constraint.eqS i 0 ev.S_0,
          Constraint.eqS i (m + 1).toNat ev.S_max]) = Except.ok b := h
      by_cases hidx : m + 1 < 0 ∨ (N : ℤ) < m + 1
      · rw [if_pos hidx] at h
        cases h
      · rw [if_neg hidx] at h
        push_neg at hidx
        injection h with h
        exact ⟨m, rfl, by omega, hidx.2, h.symm⟩

theorem boundaryAux_ok {N j : ℕ} {cfg : List CohortConfig}
    (hne : ∀ ev ∈ cfg, ev.H ≠ [] ∧ ∀ t ∈ ev.H, 0 ≤ t ∧ t < (N : ℤ)) :
    ∃ bs, boundaryConsAux N j cfg = .ok bs := by
  induction cfg generalizing j with
  | nil => exact ⟨[], rfl⟩
  | cons ev rest ih =>
      obtain ⟨hne0, hrange0⟩ := hne ev (List.mem_cons_self _ _)
      obtain ⟨m, hm⟩ := pyMax_isSome hne0
      have hm0 : 0 ≤ m := (hrange0 m (pyMax_mem hm)).1
      have hmN : m < (N : ℤ) := (hrange0 m (pyMax_mem hm)).2
      have hidx : ¬(m + 1 < 0 ∨ (N : ℤ) < m + 1) := by omega
      obtain ⟨bs', hbs'⟩ := ih (j := j + 1) fun e he => hne e (List.mem_cons.mpr (Or.inr he))
      refine ⟨[.eqS j 0 ev.S_0, .eqS j (m + 1).toNat ev.S_max] ++ bs', ?_⟩
      simp only [boundaryConsAux, bind, Except.bind, cohortBoundary, hm, if_neg hidx, hbs']
      rfl

theorem boundaryAux_shape {N j : ℕ} {cfg : List CohortConfig} {bs : List Constraint}
    (hb : boundaryConsAux N j cfg = .ok bs) {c : Constraint} (hc : c ∈ bs) :
    ∃ i ev m, cfg[i]? = some ev ∧ pyMax ev.H = some m ∧
      (c = .eqS (j + i) 0 ev.S_0 ∨ c = .eqS (j + i) (m + 1).toNat ev.S_max) := by
  induction cfg generalizing j bs with
  | nil =>
      simp only [boundaryConsAux] at hb
      cases hb
      cases hc
  | cons ev rest ih =>
      simp only [boundaryConsAux, bind, Except.bind] at hb
      cases hcb : cohortBoundary N j ev with
      | error e => rw [hcb] at hb; cases hb
      | ok b0 =>
          rw [hcb] at hb
          cases hr : boundaryConsAux N (j + 1) rest with
          | error e => rw [hr] at hb; cases hb
          | ok bs' =>
              rw [hr] at hb
              simp only [pure, Except.pure, Except.ok.injEq] at hb
              subst hb
              rcases List.mem_append.mp hc with h0 | h1
              · obtain ⟨m, hm, _, _, rfl⟩ := cohortBoundary_ok hcb
                rcases List.mem_cons.mp h0 with rfl | h0'
                · exact ⟨0, ev, m, by simp, hm, Or.inl (by rw [Nat.add_zero])⟩
                · rcases List.mem_cons.mp h0' with rfl | h0''
                  · exact ⟨0, ev, m, by simp, hm, Or.inr (by rw [Nat.add_zero])⟩
                  · cases h0''
              · obtain ⟨i, ev', m, hget, hm, hor⟩ := ih hr h1
                refine ⟨i + 1, ev', m, ?_, hm, ?_⟩
                · simpa using hget
                · rcases hor with h | h
                  · exact Or.inl (by rw [h]; ring_nf)
                  · exact Or.inr (by rw [h]; ring_nf)

theorem boundaryAux_mem {N j : ℕ} {cfg : List CohortConfig} {bs : List Constraint}
    (hb : boundaryConsAux N j cfg = .ok bs) {i : ℕ} {ev : CohortConfig} {m : ℤ}
    (hget : cfg[i]? = some ev) (hm : pyMax ev.H = some m) :
    Constraint.eqS (j + i) 0 ev.S_0 ∈ bs ∧
      Constraint.eqS (j + i) (m + 1).toNat ev.S_max ∈ bs := by
  induction cfg generalizing j bs i with
  | nil => cases hget
  | cons ev0 rest ih =>
      simp only [boundaryConsAux, bind, Except.bind] at hb
      cases hcb : cohortBoundary N j ev0 with
      | error e => rw [hcb] at hb; cases hb
      | ok b0 =>
          rw [hcb] at hb
          cases hr : boundaryConsAux N (j + 1) rest with
          | error e => rw [hr] at hb; cases hb
          | ok bs' =>
              rw [hr] at hb
              simp only [pure, Except.pure, Except.ok.injEq] at hb
              subst hb
              cases i with
              | zero =>
                  simp only [List.getElem?_cons_zero, Option.some.injEq] at hget
                  subst hget
                  obtain ⟨m0, hm0, _, _, rfl⟩ := cohortBoundary_ok hcb
                  rw [hm] at hm0
                  injection hm0 with hm0
                  subst hm0
                  constructor
                  · exact List.mem_append.mpr (Or.inl (by simp))
                  · exact List.mem_append.mpr (Or.inl (by simp))
              | succ i' =>
                  simp only [List.getElem?_cons_succ] at hget
                  have := ih (j := j + 1) hr hget
                  rw [show j + 1 + i' = j + (i' + 1) by ring] at this
                  exact ⟨List.mem_append.mpr (Or.inr this.1),
                         List.mem_append.mpr (Or.inr this.2)⟩

theorem cohortsHourAux_mem {j t : ℕ} {cfg : List CohortConfig} {c : Constraint} :
    c ∈ cohortsHourConsAux j t cfg ↔
      ∃ i ev, cfg[i]? = some ev ∧ c ∈ cohortHourCons (j + i) ev t := by
  induction cfg generalizing j with
  | nil =>
      simp only [cohortsHourConsAux, List.not_mem_nil, false_iff]
      rintro ⟨i, ev, hget, _⟩
      cases hget
  | cons ev0 rest ih =>
      simp only [cohortsHourConsAux, List.mem_append, ih]
      constructor
      · rintro (h | ⟨i, ev, hget, hc⟩)
        · exact ⟨0, ev0, by simp, by rwa [Nat.add_zero]⟩
        · exact ⟨i + 1, ev, by simpa using hget, by rwa [show j + 1 + i = j + (i + 1) by ring] at hc⟩
      · rintro ⟨i, ev, hget, hc⟩
        cases i with
        | zero =>
            simp only [List.getElem?_cons_zero, Option.some.injEq] at hget
            subst hget
            exact Or.inl (by rwa [Nat.add_zero] at hc)
        | succ i' =>
            simp only [List.getElem?_cons_succ] at hget
            exact Or.inr ⟨i', ev, hget,
              by rwa [show j + (i' + 1) = j + 1 + i' by ring] at hc⟩

theorem allHour_mem {N : ℕ} {cfg : List CohortConfig} {base : ℕ → ℚ}
    {c : Constraint} :
    c ∈ allHourCons N cfg base ↔ ∃ t < N, c ∈ hourCons cfg base t := by
  simp only [allHourCons, List.mem_flatMap, List.mem_range]

theorem buildCons_structure {N : ℕ} {cfg : List CohortConfig} {base : ℕ → ℚ}
    {cons : List Constraint} (h : buildCons N cfg base = .ok cons) :
    ∃ bs, boundaryConsAux N 0 cfg = .ok bs ∧ cons = bs ++ allHourCons N cfg base := by
  simp only [buildCons, boundaryCons, bind, Except.bind] at h
  cases hb : boundaryConsAux N 0 cfg with
  | error e => rw [hb] at h; cases h
  | ok bs =>
      rw [hb] at h
      simp only [pure, Except.pure, Except.ok.injEq] at h
      exact ⟨bs, rfl, h.symm⟩

theorem buildCons_ok {N : ℕ} {cfg : List CohortConfig} {base : ℕ → ℚ}
    (hv : validate N cfg = .ok ()) :
    ∃ cons, buildCons N cfg base = .ok cons := by
  obtain ⟨bs, hbs⟩ := boundaryAux_ok (j := 0) fun e he => validate_ok_mem hv he
  refine ⟨bs ++ allHourCons N cfg base, ?_⟩
  simp only [buildCons, boundaryCons, bind, Except.bind, hbs]
  rfl

theorem build_mem_boundary {N : ℕ} {cfg : List CohortConfig} {base : ℕ → ℚ}
    {cons : List Constraint} (hb : buildCons N cfg base = .ok cons)
    {i : ℕ} {ev : CohortConfig} {m : ℤ}
    (hget : cfg[i]? = some ev) (hm : pyMax ev.H = some m) :
    Constraint.eqS i 0 ev.S_0 ∈ cons ∧
      Constraint.eqS i (m + 1).toNat ev.S_max ∈ cons := by
  obtain ⟨bs, hbs, rfl⟩ := buildCons_structure hb
  have := boundaryAux_mem hbs hget hm
  rw [Nat.zero_add] at this
  exact ⟨List.mem_append.mpr (Or.inl this.1), List.mem_append.mpr (Or.inl this.2)⟩

theorem build_mem_hour {N : ℕ} {cfg : List CohortConfig} {base : ℕ → ℚ}
    {cons : List Constraint} (hb : buildCons N cfg base = .ok cons)
    {t : ℕ} (ht : t < N) {c : Constraint} (hc : c ∈ hourCons cfg base t) :
    c ∈ cons := by
  obtain ⟨bs, _, rfl⟩ := buildCons_structure hb
  exact List.mem_append.mpr (Or.inr (allHour_mem.mpr ⟨t, ht, hc⟩))

theorem build_mem_rateCons {N : ℕ} {cfg : List CohortConfig} {base : ℕ → ℚ}
    {cons : List Constraint} (hb : buildCons N cfg base = .ok cons)
    {i : ℕ} {ev : CohortConfig} (hget : cfg[i]? = some ev)
    {t : ℕ} (ht : t < N) : rateCons i ev t ∈ cons := by
  refine build_mem_hour hb ht ?_
  refine List.mem_append.mpr (Or.inl (cohortsHourAux_mem.mpr ⟨i, ev, hget, ?_⟩))
  rw [Nat.zero_add]
  exact List.mem_cons_self _ _

theorem build_mem_storBound {N : ℕ} {cfg : List CohortConfig} {base : ℕ → ℚ}
    {cons : List Constraint} (hb : buildCons N cfg base = .ok cons)
    {i : ℕ} {ev : CohortConfig} (hget : cfg[i]? = some ev)
    {t : ℕ} (ht : t < N) : Constraint.storBound i t ev.S_max ∈ cons := by
  refine build_mem_hour hb ht ?_
  refine List.mem_append.mpr (Or.inl (cohortsHourAux_mem.mpr ⟨i, ev, hget, ?_⟩))
  rw [Nat.zero_add]
  exact List.mem_cons.mpr (Or.inr (List.mem_cons_self _ _))

theorem build_mem_recur {N : ℕ} {cfg : List CohortConfig} {base : ℕ → ℚ}
    {cons : List Constraint} (hb : buildCons N cfg base = .ok cons)
    {i : ℕ} {ev : CohortConfig} (hget : cfg[i]? = some ev)
    {t : ℕ} (ht : t < N) : Constraint.recur i t ∈ cons := by
  refine build_mem_hour hb ht ?_
  refine List.mem_append.mpr (Or.inl (cohortsHourAux_mem.mpr ⟨i, ev, hget, ?_⟩))
  rw [Nat.zero_add]
  exact List.mem_cons.mpr (Or.inr (List.mem_cons.mpr (Or.inr (List.mem_cons_self _ _))))

theorem build_mem_priceEq {N : ℕ} {cfg : List CohortConfig} {base : ℕ → ℚ}
    {cons : List Constraint} (hb : buildCons N cfg base = .ok cons)
    {t : ℕ} (ht : t < N) :
    Constraint.priceEq t (base t) (cfg.map (·.P)) ∈ cons := by
  refine build_mem_hour hb ht ?_
  exact List.mem_append.mpr (Or.inr (List.mem_cons_self _ _))

theorem recur_mem_iff {N : ℕ} {cfg : List CohortConfig} {base : ℕ → ℚ}
    {cons : List Constraint} (hb : buildCons N cfg base = .ok cons)
    {i t : ℕ} : Constraint.recur i t ∈ cons ↔ i < cfg.length ∧ t < N := by
  obtain ⟨bs, hbs, rfl⟩ := buildCons_structure hb
  constructor
  · intro hc
    rcases List.mem_append.mp hc with h | h
    · obtain ⟨_, _, _, _, _, hor⟩ := boundaryAux_shape hbs h
      rcases hor with h' | h' <;> cases h'
    · obtain ⟨t', ht', hc'⟩ := allHour_mem.mp h
      rcases List.mem_append.mp hc' with h'' | h''
      · obtain ⟨i', ev, hget, hmem⟩ := cohortsHourAux_mem.mp h''
        rw [Nat.zero_add] at hmem
        simp only [cohortHourCons, List.mem_cons, List.not_mem_nil, or_false] at hmem
        rcases hmem with h3 | h3 | h3
        · rw [rateCons] at h3
          split at h3 <;> cases h3
        · cases h3
        · cases h3
          have hi : i < cfg.length := by
            by_contra hcon
            push_neg at hcon
            rw [List.getElem?_eq_none hcon] at hget
            cases hget
          exact ⟨hi, ht'⟩
      · simp only [List.mem_cons, List.not_mem_nil, or_false] at h''
        cases h''
  · rintro ⟨hi, ht⟩
    obtain ⟨ev, hget⟩ : ∃ ev, cfg[i]? = some ev := by
      rw [List.getElem?_eq_getElem hi]
      exact ⟨_, rfl⟩
    have hmem : Constraint.recur i t ∈ allHourCons N cfg base := by
      refine allHour_mem.mpr ⟨t, ht, ?_⟩
      refine List.mem_append.mpr (Or.inl (cohortsHourAux_mem.mpr ⟨i, ev, hget, ?_⟩))
      rw [Nat.zero_add]
      exact List.mem_cons.mpr (Or.inr (List.mem_cons.mpr (Or.inr (List.mem_cons_self _ _))))
    exact List.mem_append.mpr (Or.inr hmem)

theorem eqRZero_mem_iff {N : ℕ} {cfg : List CohortConfig} {base : ℕ → ℚ}
    {cons : List Constraint} (hb : buildCons N cfg base = .ok cons)
    {i t : ℕ} : Constraint.eqRZero i t ∈ cons ↔
      ∃ ev, cfg[i]? = some ev ∧ t < N ∧ (t : ℤ) ∉ ev.H := by
  obtain ⟨bs, hbs, rfl⟩ := buildCons_structure hb
  constructor
  · intro hc
    rcases List.mem_append.mp hc with h | h
    · obtain ⟨_, _, _, _, _, hor⟩ := boundaryAux_shape hbs h
      rcases hor with h' | h' <;> cases h'
    · obtain ⟨t', ht', hc'⟩ := allHour_mem.mp h
      rcases List.mem_append.mp hc' with h'' | h''
      · obtain ⟨i', ev, hget, hmem⟩ := cohortsHourAux_mem.mp h''
        rw [Nat.zero_add] at hmem
        simp only [cohortHourCons, List.mem_cons, List.not_mem_nil, or_false] at hmem
        rcases hmem with h3 | h3 | h3
        · rw [rateCons] at h3
          split at h3
          · cases h3
          · cases h3
            exact ⟨ev, hget, ht', by assumption⟩
        · cases h3
        · cases h3
      · simp only [List.mem_cons, List.not_mem_nil, or_false] at h''
        cases h''
  · rintro ⟨ev, hget, ht, hnot⟩
    have hmem : Constraint.eqRZero i t ∈ allHourCons N cfg base := by
      refine allHour_mem.mpr ⟨t, ht, ?_⟩
      refine List.mem_append.mpr (Or.inl (cohortsHourAux_mem.mpr ⟨i, ev, hget, ?_⟩))
      rw [Nat.zero_add]
      have : rateCons i ev t = Constraint.eqRZero i t := by
        rw [rateCons, if_neg hnot]
      rw [← this]
      exact List.mem_cons_self _ _
    exact List.mem_append.mpr (Or.inr hmem)

/-! ## Consequences of feasibility -/

theorem feas_S0 {N : ℕ} {cfg : List CohortConfig} {base : ℕ → ℚ}
    {cons : List Constraint} {σ : Assign}
    (hb : buildCons N cfg base = .ok cons) (hf : FeasibleFor cons N cfg.length σ)
    {i : ℕ} {ev : CohortConfig} {m : ℤ}
    (hget : cfg[i]? = some ev) (hm : pyMax ev.H = some m) :
    σ.S i 0 = ev.S_0 :=
  hf.2 _ (build_mem_boundary hb hget hm).1

theorem feas_Smax {N : ℕ} {cfg : List CohortConfig} {base : ℕ → ℚ}
    {cons : List Constraint} {σ : Assign}
    (hb : buildCons N cfg base = .ok cons) (hf : FeasibleFor cons N cfg.length σ)
    {i : ℕ} {ev : CohortConfig} {m : ℤ}
    (hget : cfg[i]? = some ev) (hm : pyMax ev.H = some m) :
    σ.S i (m + 1).toNat = ev.S_max :=
  hf.2 _ (build_mem_boundary hb hget hm).2

theorem feas_rate_zero {N : ℕ} {cfg : List CohortConfig} {base : ℕ → ℚ}
    {cons : List Constraint} {σ : Assign}
    (hb : buildCons N cfg base = .ok cons) (hf : FeasibleFor cons N cfg.length σ)
    {i : ℕ} {ev : CohortConfig} (hget : cfg[i]? = some ev)
    {t : ℕ} (ht : t < N) (hna : (t : ℤ) ∉ ev.H) : σ.R i t = 0 := by
  have hmem := build_mem_rateCons hb hget ht
  rw [rateCons, if_neg hna] at hmem
  exact hf.2 _ hmem

theorem feas_rate_bound {N : ℕ} {cfg : List CohortConfig} {base : ℕ → ℚ}
    {cons : List Constraint} {σ : Assign}
    (hb : buildCons N cfg base = .ok cons) (hf : FeasibleFor cons N cfg.length σ)
    {i : ℕ} {ev : CohortConfig} (hget : cfg[i]? = some ev)
    {t : ℕ} (ht : t < N) (ha : (t : ℤ) ∈ ev.H) :
    -ev.R_max ≤ σ.R i t ∧ σ.R i t ≤ ev.R_max := by
  have hmem := build_mem_rateCons hb hget ht
  rw [rateCons, if_pos ha] at hmem
  exact hf.2 _ hmem

theorem feas_stor {N : ℕ} {cfg : List CohortConfig} {base : ℕ → ℚ}
    {cons : List Constraint} {σ : Assign}
    (hb : buildCons N cfg base = .ok cons) (hf : FeasibleFor cons N cfg.length σ)
    {i : ℕ} {ev : CohortConfig} (hget : cfg[i]? = some ev)
    {t : ℕ} (ht : t < N) : 0 ≤ σ.S i t ∧ σ.S i t ≤ ev.S_max :=
  hf.2 _ (build_mem_storBound hb hget ht)

theorem feas_recur {N : ℕ} {cfg : List CohortConfig} {base : ℕ → ℚ}
    {cons : List Constraint} {σ : Assign}
    (hb : buildCons N cfg base = .ok cons) (hf : FeasibleFor cons N cfg.length σ)
    {i : ℕ} {ev : CohortConfig} (hget : cfg[i]? = some ev)
    {t : ℕ} (ht : t < N) : σ.S i (t + 1) = σ.S i t + σ.R i t :=
  hf.2 _ (build_mem_recur hb hget ht)

theorem feas_price {N : ℕ} {cfg : List CohortConfig} {base : ℕ → ℚ}
    {cons : List Constraint} {σ : Assign}
    (hb : buildCons N cfg base = .ok cons) (hf : FeasibleFor cons N cfg.length σ)
    {t : ℕ} (ht : t < N) :
    σ.P t = base t + weightedSum (cfg.map (·.P)) (fun i => σ.R i t) :=
  hf.2 _ (build_mem_priceEq hb ht)

/-! ## Storage telescoping and flatness -/

theorem storage_telescope (σ : Assign) (i : ℕ) :
    ∀ n, (∀ t < n, σ.S i (t + 1) = σ.S i t + σ.R i t) →
      σ.S i n = σ.S i 0 + ((List.range n).map fun t => σ.R i t).sum := by
  intro n
  induction n with
  | zero => intro _; simp
  | succ n ih =>
      intro h
      rw [List.range_succ, List.map_append, List.sum_append,
        h n (Nat.lt_succ_self n), ih fun t ht => h t (Nat.lt_succ_of_lt ht)]
      simp [add_assoc]

theorem storage_flat (σ : Assign) (i a : ℕ) :
    ∀ n, a ≤ n → (∀ u, a ≤ u → u < n → σ.S i (u + 1) = σ.S i u) →
      σ.S i n = σ.S i a := by
  intro n
  induction n with
  | zero =>
      intro han _
      rw [Nat.le_zero.mp han]
  | succ n ih =>
      intro han h
      rcases Nat.lt_or_ge a (n + 1) with hlt | hge
      · have han' : a ≤ n := Nat.lt_succ_iff.mp hlt
        rw [h n han' (Nat.lt_succ_self n)]
        exact ih han' fun u hu1 hu2 => h u hu1 (Nat.lt_succ_of_lt hu2)
      · rw [Nat.le_antisymm han hge]

theorem mem_of_get? {α : Type} {l : List α} {i : ℕ} {a : α}
    (h : l[i]? = some a) : a ∈ l := by
  induction l generalizing i with
  | nil => cases h
  | cons x xs ih =>
      cases i with
      | zero =>
          simp only [List.getElem?_cons_zero, Option.some.injEq] at h
          exact h ▸ List.mem_cons_self _ _
      | succ n =>
          simp only [List.getElem?_cons_succ] at h
          exact List.mem_cons.mpr (Or.inr (ih h))

/-- After the boundary hour `max(H_i) + 1`, a feasible storage trajectory
stays pinned at `S_max`. -/
theorem feas_S_flat_max {N : ℕ} {cfg : List CohortConfig} {base : ℕ → ℚ}
    {cons : List Constraint} {σ : Assign}
    (hv : validate N cfg = .ok ()) (hb : buildCons N cfg base = .ok cons)
    (hf : FeasibleFor cons N cfg.length σ)
    {i : ℕ} {ev : CohortConfig} {m : ℤ}
    (hget : cfg[i]? = some ev) (hm : pyMax ev.H = some m) :
    ∀ u, (m + 1).toNat ≤ u → u ≤ N → σ.S i u = ev.S_max := by
  intro u hmu huN
  have hmem : ev ∈ cfg := mem_of_get? hget
  have hrange := (validate_ok_mem hv hmem).2
  have hm0 : 0 ≤ m := (hrange m (pyMax_mem hm)).1
  have habove : ∀ v : ℕ, (m + 1).toNat ≤ v → (v : ℤ) ∉ ev.H := by
    intro v hv' hcon
    have h1 : (v : ℤ) ≤ m := le_pyMax hm hcon
    have h2 : m + 1 ≤ (v : ℤ) := by
      have := Int.toNat_le.mp (le_refl (m + 1).toNat)
      omega
    omega
  have hflat : σ.S i u = σ.S i (m + 1).toNat := by
    refine storage_flat σ i _ u hmu ?_
    intro w hw1 hw2
    have hwN : w < N := lt_of_lt_of_le hw2 huN
    rw [feas_recur hb hf hget hwN, feas_rate_zero hb hf hget hwN (habove w hw1),
      add_zero]
  rw [hflat]
  exact feas_Smax hb hf hget hm

/-! ## Claims C3 – C6 -/

/-- Claim C3: for every cohort `i` and every hour `t ∈ [0, N)` the
constructed model contains the constraint
`storage[i,t+1] = storage[i,t] + rate[i,t]` (and a recurrence constraint is
in the model exactly for those indices), and no other constraint couples
variables of consecutive hours: every non-recurrence constraint of the
model mentions variables of a single hour only. -/
theorem claim_C3 {N : ℕ} {cfg : List CohortConfig} {base : ℕ → ℚ}
    {cons : List Constraint} (hb : buildCons N cfg base = .ok cons) :
    (∀ i t, Constraint.recur i t ∈ cons ↔ i < cfg.length ∧ t < N) ∧
      (∀ c ∈ cons, (∃ i t, c = Constraint.recur i t) ∨ ∃ u, timesOf c = [u]) := by
  refine ⟨fun i t => recur_mem_iff hb, fun c _ => ?_⟩
  cases c with
  | recur i t => exact Or.inl ⟨i, t, rfl⟩
  | eqS i t v => exact Or.inr ⟨t, rfl⟩
  | eqRZero i t => exact Or.inr ⟨t, rfl⟩
  | rateBound i t m => exact Or.inr ⟨t, rfl⟩
  | storBound i t m => exact Or.inr ⟨t, rfl⟩
  | priceEq t b w => exact Or.inr ⟨t, rfl⟩

/-- Claim C4: for cohort `i` and hour `t ∈ [0, N)`: when `t` is outside the
availability window the model contains the constraint `rate[i,t] = 0` (and
no zero-rate constraint is present for available hours); when `t` is inside
the window the model contains `rate[i,t] ∈ [-R_max, R_max]`; consequently
every feasible solution has `rate[i,t] = 0` at unavailable hours. -/
theorem claim_C4 {N : ℕ} {cfg : List CohortConfig} {base : ℕ → ℚ}
    {cons : List Constraint} (hb : buildCons N cfg base = .ok cons)
    {i : ℕ} {ev : CohortConfig} (hget : cfg[i]? = some ev)
    {t : ℕ} (ht : t < N) :
    ((t : ℤ) ∉ ev.H → Constraint.eqRZero i t ∈ cons) ∧
      ((t : ℤ) ∈ ev.H → Constraint.rateBound i t ev.R_max ∈ cons) ∧
      ((t : ℤ) ∈ ev.H → Constraint.eqRZero i t ∉ cons) ∧
      (∀ σ : Assign, FeasibleFor cons N cfg.length σ →
        (t : ℤ) ∉ ev.H → σ.R i t = 0) := by
  refine ⟨?_, ?_, ?_, ?_⟩
  · intro hna
    have hmem := build_mem_rateCons hb hget ht
    rwa [rateCons, if_neg hna] at hmem
  · intro ha
    have hmem := build_mem_rateCons hb hget ht
    rwa [rateCons, if_pos ha] at hmem
  · intro ha hmem
    obtain ⟨ev', hget', _, hna'⟩ := (eqRZero_mem_iff hb).mp hmem
    rw [hget] at hget'
    cases hget'
    exact hna' ha
  · intro σ hf hna
    exact feas_rate_zero hb hf hget ht hna

/-- Claim C5: for every hour `t ∈ [0, N)` the model contains the constraint
`price[t] = base_price[t] + Σ_i price_influence_i ⬝ rate[i,t]`, and in every
feasible solution the price satisfies that equation and is nonnegative. -/
theorem claim_C5 {N : ℕ} {cfg : List CohortConfig} {base : ℕ → ℚ}
    {cons : List Constraint} (hb : buildCons N cfg base = .ok cons)
    {t : ℕ} (ht : t < N) :
    Constraint.priceEq t (base t) (cfg.map (·.P)) ∈ cons ∧
      ∀ σ : Assign, FeasibleFor cons N cfg.length σ →
        σ.P t = base t + weightedSum (cfg.map (·.P)) (fun i => σ.R i t) ∧
          0 ≤ σ.P t := by
  refine ⟨build_mem_priceEq hb ht, fun σ hf => ⟨feas_price hb hf ht, hf.1.2 t ht⟩⟩

/-- Claim C6: in every feasible solution of a validated configuration,
`storage[i,t] ∈ [0, S_max_i]` for every hour `t ∈ [0, N]`, the terminal
hour `t = N` included, although the explicit storage-bound constraint is
only added for `t ∈ [0, N)`. -/
theorem claim_C6 {N : ℕ} {cfg : List CohortConfig} {base : ℕ → ℚ} {σ : Assign}
    (hv : validate N cfg = .ok ()) (hσ : Feasible N cfg base σ)
    {i : ℕ} {ev : CohortConfig} (hget : cfg[i]? = some ev)
    {t : ℕ} (ht : t ≤ N) : 0 ≤ σ.S i t ∧ σ.S i t ≤ ev.S_max := by
  obtain ⟨cons, hb, hf⟩ := hσ
  have hi : i < cfg.length := by
    by_contra hcon
    push_neg at hcon
    rw [List.getElem?_eq_none hcon] at hget
    cases hget
  refine ⟨hf.1.1 i hi t ht, ?_⟩
  rcases Nat.lt_or_ge t N with htN | htN
  · exact (feas_stor hb hf hget htN).2
  · have htN' : t = N := Nat.le_antisymm ht htN
    rw [htN']
    obtain ⟨hne, hrange⟩ := validate_ok_mem hv (mem_of_get? hget)
    obtain ⟨m, hm⟩ := pyMax_isSome hne
    have hm0 : 0 ≤ m := (hrange m (pyMax_mem hm)).1
    have hmN : m < (N : ℤ) := (hrange m (pyMax_mem hm)).2
    have hle : (m + 1).toNat ≤ N := by omega
    rw [feas_S_flat_max hv hb hf hget hm N hle (le_refl N)]

/-! ## Claim C2: the boundary constraints -/

theorem allHour_no_eqS {N : ℕ} {cfg : List CohortConfig} {base : ℕ → ℚ}
    {q : ℕ} {c : Constraint} (hc : c ∈ allHourCons N cfg base) :
    eqSOf q c = false := by
  obtain ⟨t, _, hc'⟩ := allHour_mem.mp hc
  rcases List.mem_append.mp hc' with h | h
  · obtain ⟨i, ev, _, hmem⟩ := cohortsHourAux_mem.mp h
    simp only [cohortHourCons, List.mem_cons, List.not_mem_nil, or_false] at hmem
    rcases hmem with h3 | h3 | h3
    · rw [h3, rateCons]
      split <;> rfl
    · rw [h3]; rfl
    · rw [h3]; rfl
  · simp only [List.mem_cons, List.not_mem_nil, or_false] at h
    rw [h]; rfl

theorem boundaryAux_filter_lt {N j q : ℕ} {cfg : List CohortConfig}
    {bs : List Constraint} (hb : boundaryConsAux N j cfg = .ok bs)
    (hq : q < j) : bs.filter (eqSOf q) = [] := by
  rw [List.filter_eq_nil_iff]
  intro c hc
  obtain ⟨i, ev, m, _, _, hor⟩ := boundaryAux_shape hb hc
  have hne : j + i ≠ q := by omega
  rcases hor with h | h <;> rw [h] <;> simp [eqSOf, hne]

theorem boundaryAux_filter {N j : ℕ} {cfg : List CohortConfig}
    {bs : List Constraint} (hb : boundaryConsAux N j cfg = .ok bs)
    {i : ℕ} {ev : CohortConfig} {m : ℤ}
    (hget : cfg[i]? = some ev) (hm : pyMax ev.H = some m) :
    bs.filter (eqSOf (j + i)) =
      [Constraint.eqS (j + i) 0 ev.S_0,
       Constraint.eqS (j + i) (m + 1).toNat ev.S_max] := by
  induction cfg generalizing j bs i with
  | nil => cases hget
  | cons ev0 rest ih =>
      simp only [boundaryConsAux, bind, Except.bind] at hb
      cases hcb : cohortBoundary N j ev0 with
      | error e => rw [hcb] at hb; cases hb
      | ok b0 =>
          rw [hcb] at hb
          cases hr : boundaryConsAux N (j + 1) rest with
          | error e => rw [hr] at hb; cases hb
          | ok bs' =>
              rw [hr] at hb
              simp only [pure, Except.pure, Except.ok.injEq] at hb
              subst hb
              rw [List.filter_append]
              cases i with
              | zero =>
                  simp only [List.getElem?_cons_zero, Option.some.injEq] at hget
                  subst hget
                  obtain ⟨m0, hm0, _, _, rfl⟩ := cohortBoundary_ok hcb
                  rw [hm] at hm0
                  injection hm0 with hm0
                  subst hm0
                  rw [boundaryAux_filter_lt hr (by omega), List.append_nil,
                    Nat.add_zero]
                  simp [List.filter, eqSOf]
              | succ i' =>
                  simp only [List.getElem?_cons_succ] at hget
                  have hb0 : b0.filter (eqSOf (j + (i' + 1))) = [] := by
                    obtain ⟨m0, hm0, _, _, rfl⟩ := cohortBoundary_ok hcb
                    have hne : j ≠ j + (i' + 1) := by omega
                    have hbeq : (j == j + (i' + 1)) = false :=
                      beq_eq_false_iff_ne.mpr hne
                    simp [List.filter, eqSOf, hbeq]
                  rw [hb0, List.nil_append]
                  have := ih (j := j + 1) (i := i') hr hget
                  rwa [show j + 1 + i' = j + (i' + 1) by ring] at this

/-- Claim C2: for every cohort `i` (with its non-empty availability window
having maximum `m`), the storage-equality (boundary) constraints of the
constructed model for cohort `i` are exactly the two constraints
`storage[i,0] = S_0_i` and `storage[i, m+1] = S_max_i`: full charge is
required exactly one hour after the cohort's own last available hour, not
at the shared horizon end. -/
theorem claim_C2 {N : ℕ} {cfg : List CohortConfig} {base : ℕ → ℚ}
    {cons : List Constraint} (hb : buildCons N cfg base = .ok cons)
    {i : ℕ} {ev : CohortConfig} {m : ℤ}
    (hget : cfg[i]? = some ev) (hm : pyMax ev.H = some m) :
    cons.filter (eqSOf i) =
      [Constraint.eqS i 0 ev.S_0, Constraint.eqS i (m + 1).toNat ev.S_max] := by
  obtain ⟨bs, hbs, rfl⟩ := buildCons_structure hb
  rw [List.filter_append]
  have h2 : (allHourCons N cfg base).filter (eqSOf i) = [] :=
    List.filter_eq_nil_iff.mpr fun c hc => by
      rw [allHour_no_eqS hc]
      exact Bool.false_ne_true
  rw [h2, List.append_nil]
  have := boundaryAux_filter hbs hget hm
  rwa [Nat.zero_add] at this

/-! ## Claim C7: monotonicity of realized cost in the price influence -/

theorem weightedSum_set {ws : List ℚ} {k : ℕ} {w : ℚ} (hk : ws[k]? = some w)
    (x : ℚ) (f : ℕ → ℚ) :
    weightedSum (ws.set k x) f = weightedSum ws f + (x - w) * f k := by
  induction ws generalizing k f with
  | nil => cases hk
  | cons w0 ws' ih =>
      cases k with
      | zero =>
          simp only [List.getElem?_cons_zero, Option.some.injEq] at hk
          subst hk
          simp only [List.set_cons_zero, weightedSum]
          ring
      | succ k' =>
          simp only [List.getElem?_cons_succ] at hk
          simp only [List.set_cons_succ, weightedSum, ih hk]
          ring

theorem map_influence_set {cfg : List CohortConfig} {i : ℕ} (ev' : CohortConfig) :
    (cfg.set i ev').map (·.P) = (cfg.map (·.P)).set i ev'.P := by
  induction cfg generalizing i with
  | nil => rfl
  | cons e rest ih =>
      cases i with
      | zero => rfl
      | succ i' => simp only [List.set_cons_succ, List.map_cons, ih]

theorem realizedPrice_set {cfg : List CohortConfig} {base : ℕ → ℚ}
    {R : ℕ → ℕ → ℚ} {i : ℕ} {ev : CohortConfig} (hget : cfg[i]? = some ev)
    (ev' : CohortConfig) (t : ℕ) :
    realizedPrice (cfg.set i ev') base R t =
      realizedPrice cfg base R t + (ev'.P - ev.P) * R i t := by
  have hP : (cfg.map (·.P))[i]? = some ev.P := by
    rw [List.getElem?_map, hget]
    rfl
  rw [realizedPrice, realizedPrice, map_influence_set, weightedSum_set hP]
  ring

/-- Claim C7: for a fixed rate schedule and fixed base prices, raising
cohort `i`'s price-influence coefficient (all other cohort parameters and
all rates held fixed) cannot decrease cohort `i`'s realized total cost
`Σ_t price[t] ⬝ rate[i,t]`, the price being given by the price-feedback
equation. -/
theorem claim_C7 {N : ℕ} {cfg : List CohortConfig} {base : ℕ → ℚ}
    {R : ℕ → ℕ → ℚ} {i : ℕ} {ev : CohortConfig} {q : ℚ}
    (hget : cfg[i]? = some ev) (hq : ev.P ≤ q) :
    realizedCost N cfg base R i ≤
      realizedCost N (cfg.set i (setP ev q)) base R i := by
  rw [realizedCost, realizedCost]
  refine List.sum_le_sum ?_
  intro t _
  rw [realizedPrice_set hget (setP ev q) t]
  have hP : (setP ev q).P = q := rfl
  rw [hP]
  have h1 : 0 ≤ (q - ev.P) * (R i t * R i t) :=
    mul_nonneg (sub_nonneg.mpr hq) (mul_self_nonneg _)
  nlinarith [h1]

/-! ## Claim C8: windows too short to reach full charge are infeasible -/

theorem sum_le_mul_count {ts : List ℕ} {f : ℕ → ℚ} {p : ℕ → Bool} {c : ℚ}
    (h1 : ∀ t ∈ ts, p t = true → f t ≤ c)
    (h2 : ∀ t ∈ ts, p t = false → f t = 0) :
    (ts.map f).sum ≤ c * ((ts.filter p).length : ℚ) := by
  induction ts with
  | nil => simp
  | cons t ts ih =>
      have iht := ih (fun u hu hp => h1 u (List.mem_cons.mpr (Or.inr hu)) hp)
        (fun u hu hp => h2 u (List.mem_cons.mpr (Or.inr hu)) hp)
      simp only [List.map_cons, List.sum_cons, List.filter_cons]
      cases hp : p t
      · rw [h2 t (List.mem_cons_self _ _) hp, zero_add]
        simpa using iht
      · have hft : f t ≤ c := h1 t (List.mem_cons_self _ _) hp
        have hlen : (((t :: ts.filter p).length : ℕ) : ℚ) =
            (((ts.filter p).length : ℕ) : ℚ) + 1 := by
          rw [List.length_cons]
          push_cast
          ring
        rw [if_pos rfl, hlen]
        linarith [iht, hft]

/-- Claim C8: if some cohort's window is too short to deliver the required
charge (`R_max ⬝ |availability| < S_max − S_0`), the constraint set built
by the model admits no feasible assignment at all. -/
theorem claim_C8 {N : ℕ} {cfg : List CohortConfig} {base : ℕ → ℚ}
    {i : ℕ} {ev : CohortConfig}
    (hv : validate N cfg = .ok ()) (hget : cfg[i]? = some ev)
    (hlt : ev.R_max * (numAvail N ev : ℚ) < ev.S_max - ev.S_0) :
    ∀ σ : Assign, ¬ Feasible N cfg base σ := by
  intro σ hfeas
  obtain ⟨cons, hb, hf⟩ := hfeas
  obtain ⟨hne, hrange⟩ := validate_ok_mem hv (mem_of_get? hget)
  obtain ⟨m, hm⟩ := pyMax_isSome hne
  have hm0 : 0 ≤ m := (hrange m (pyMax_mem hm)).1
  have hmN : m < (N : ℤ) := (hrange m (pyMax_mem hm)).2
  have hle : (m + 1).toNat ≤ N := by omega
  have hS0 : σ.S i 0 = ev.S_0 := feas_S0 hb hf hget hm
  have hSN : σ.S i N = ev.S_max :=
    feas_S_flat_max hv hb hf hget hm N hle (le_refl N)
  have htel : σ.S i N = σ.S i 0 + ((List.range N).map fun t => σ.R i t).sum :=
    storage_telescope σ i N fun t ht => feas_recur hb hf hget ht
  have hbound : ((List.range N).map fun t => σ.R i t).sum ≤
      ev.R_max * (numAvail N ev : ℚ) := by
    rw [numAvail]
    refine sum_le_mul_count ?_ ?_
    · intro t ht hp
      have htN : t < N := List.mem_range.mp ht
      have ha : (t : ℤ) ∈ ev.H := of_decide_eq_true hp
      exact (feas_rate_bound hb hf hget htN ha).2
    · intro t ht hp
      have htN : t < N := List.mem_range.mp ht
      have hna : (t : ℤ) ∉ ev.H := of_decide_eq_false hp
      exact feas_rate_zero hb hf hget htN hna
  rw [hSN, hS0] at htel
  linarith

/-! ## Claim C1: validation -/

theorem mainModel_of_validate_error {N : ℕ} {cfg : List CohortConfig}
    {base : ℕ → ℚ} {e : PyError} (h : validate N cfg = .error e) :
    mainModel N cfg base = .error e := by
  simp only [mainModel, bind, Except.bind, h]

/-- Claim C1 (amended): for configurations whose cohorts all have non-empty
availability, validation succeeds iff every availability entry of every
cohort lies in `[0, N)`; when some entry lies outside that range,
validation fails with the `SystemExit` invalid-configuration error carrying
a fixed message that does not name the offending cohort, and no model
constraints are constructed (`main` stops before model construction). -/
theorem claim_C1 {N : ℕ} {cfg : List CohortConfig} {base : ℕ → ℚ}
    (hne : ∀ ev ∈ cfg, ev.H ≠ []) :
    (validate N cfg = .ok () ↔
        ∀ ev ∈ cfg, ∀ t ∈ ev.H, 0 ≤ t ∧ t < (N : ℤ)) ∧
      ((¬ ∀ ev ∈ cfg, ∀ t ∈ ev.H, 0 ≤ t ∧ t < (N : ℤ)) →
        validate N cfg = .error (.systemExit hourMsg) ∧
          mainModel N cfg base = .error (.systemExit hourMsg)) := by
  refine ⟨validate_ok_iff hne, fun hnot => ?_⟩
  have hfail : validate N cfg = .error (.systemExit hourMsg) := by
    refine validate_fail hne fun hok => ?_
    exact hnot ((validate_ok_iff hne).mp hok)
  exact ⟨hfail, mainModel_of_validate_error hfail⟩

/-- Claim C1, counterexample to the claim as stated: the claim asserts the
validation failure names the offending cohort, but two configurations
whose offending cohort sits at different positions (cohort 0 in the first
list, cohort 1 in the second) fail with the identical fixed error value,
which therefore carries no information about which cohort offends. -/
theorem claim_C1_counterexample :
    validate 24 [badC, goodC] = .error (.systemExit hourMsg) ∧
      validate 24 [goodC, badC] = .error (.systemExit hourMsg) ∧
      (∀ t ∈ goodC.H, 0 ≤ t ∧ t < (24 : ℤ)) ∧
      ¬ ∀ t ∈ badC.H, 0 ≤ t ∧ t < (24 : ℤ) := by
  refine ⟨rfl, rfl, by decide, by decide⟩

/-! ## Claim C9: result extraction -/

/-- Claim C9: result extraction computes cohort `i`'s average price per
unit energy as `total_cost_i / Σ_t rate[i,t]`; the average is undefined
(NumPy float division by zero, the spec's `DivisionUndefined`) exactly when
the net delivered energy is zero, and each cohort's entry of the extracted
result is present regardless. -/
theorem claim_C9 {N k : ℕ} {Psol : ℕ → ℚ} {Rsol : ℕ → ℕ → ℚ} {i : ℕ}
    (hik : i < k) :
    (extractResults N k Psol Rsol)[i]? =
        some ⟨totalCostOf N Psol Rsol i, avgPriceOf N Psol Rsol i⟩ ∧
      (avgPriceOf N Psol Rsol i = none ↔ netEnergyOf N Rsol i = 0) ∧
      (netEnergyOf N Rsol i ≠ 0 →
        avgPriceOf N Psol Rsol i =
          some (totalCostOf N Psol Rsol i / netEnergyOf N Rsol i)) := by
  refine ⟨?_, ?_, ?_⟩
  · rw [extractResults, List.getElem?_map, List.getElem?_range hik]
    rfl
  · rw [avgPriceOf, npDiv]
    by_cases h : netEnergyOf N Rsol i = 0
    · simp [h]
    · simp [h]
  · intro h
    rw [avgPriceOf, npDiv, if_neg h]

/-! ## Claim C10: empty availability sets -/

theorem validate_empty_valueError {N : ℕ} {cfg : List CohortConfig}
    (hok : ∀ e ∈ cfg, ∀ t ∈ e.H, 0 ≤ t ∧ t < (N : ℤ))
    (hex : ∃ e ∈ cfg, e.H = []) : validate N cfg = .error .valueError := by
  induction cfg with
  | nil =>
      obtain ⟨e, he, _⟩ := hex
      cases he
  | cons e0 rest ih =>
      simp only [validate, bind, Except.bind]
      by_cases h0 : e0.H = []
      · have hck : checkCohort N e0 = .error .valueError := by
          rw [checkCohort, h0]
          rfl
        rw [hck]
      · have hck : checkCohort N e0 = .ok () :=
          (checkCohort_ok_iff h0).mpr (hok e0 (List.mem_cons_self _ _))
        rw [hck]
        refine ih (fun e he => hok e (List.mem_cons.mpr (Or.inr he))) ?_
        obtain ⟨e, he, hee⟩ := hex
        rcases List.mem_cons.mp he with rfl | he'
        · exact absurd hee h0
        · exact ⟨e, he', hee⟩

theorem cohortBoundary_empty {N j : ℕ} {e0 : CohortConfig} (h0 : e0.H = []) :
    cohortBoundary N j e0 = .error .valueError := by
  rw [cohortBoundary, h0]
  rfl

theorem boundaryAux_empty_valueError {N j : ℕ} {cfg : List CohortConfig}
    (hok : ∀ e ∈ cfg, ∀ t ∈ e.H, 0 ≤ t ∧ t < (N : ℤ))
    (hex : ∃ e ∈ cfg, e.H = []) :
    boundaryConsAux N j cfg = .error .valueError := by
  induction cfg generalizing j with
  | nil =>
      obtain ⟨e, he, _⟩ := hex
      cases he
  | cons e0 rest ih =>
      simp only [boundaryConsAux, bind, Except.bind]
      by_cases h0 : e0.H = []
      · rw [cohortBoundary_empty h0]
      · obtain ⟨m, hm⟩ := pyMax_isSome h0
        have hm0 : 0 ≤ m := (hok e0 (List.mem_cons_self _ _) m (pyMax_mem hm)).1
        have hmN : m < (N : ℤ) := (hok e0 (List.mem_cons_self _ _) m (pyMax_mem hm)).2
        have hidx : ¬(m + 1 < 0 ∨ (N : ℤ) < m + 1) := by omega
        have hcb : cohortBoundary N j e0 =
            .ok [.eqS j 0 e0.S_0, .eqS j (m + 1).toNat e0.S_max] := by
          rw [cohortBoundary, hm]
          exact if_neg hidx
        rw [hcb]
        have hex' : ∃ e ∈ rest, e.H = [] := by
          obtain ⟨e, he, hee⟩ := hex
          rcases List.mem_cons.mp he with rfl | he'
          · exact absurd hee h0
          · exact ⟨e, he', hee⟩
        rw [ih (fun e he => hok e (List.mem_cons.mpr (Or.inr he))) hex']

theorem boundaryAux_never_ok {N j : ℕ} {cfg : List CohortConfig}
    (hex : ∃ e ∈ cfg, e.H = []) :
    ∀ bs, boundaryConsAux N j cfg ≠ .ok bs := by
  induction cfg generalizing j with
  | nil =>
      obtain ⟨e, he, _⟩ := hex
      cases he
  | cons e0 rest ih =>
      intro bs hb
      simp only [boundaryConsAux, bind, Except.bind] at hb
      by_cases h0 : e0.H = []
      · rw [cohortBoundary_empty h0] at hb
        cases hb
      · cases hcb : cohortBoundary N j e0 with
        | error e => rw [hcb] at hb; cases hb
        | ok b0 =>
            rw [hcb] at hb
            have hex' : ∃ e ∈ rest, e.H = [] := by
              obtain ⟨e, he, hee⟩ := hex
              rcases List.mem_cons.mp he with rfl | he'
              · exact absurd hee h0
              · exact ⟨e, he', hee⟩
            cases hr : boundaryConsAux N (j + 1) rest with
            | error e => rw [hr] at hb; cases hb
            | ok bs' => exact ih hex' bs' hr

theorem buildCons_of_boundary_error {N : ℕ} {cfg : List CohortConfig}
    {base : ℕ → ℚ} {e : PyError} (h : boundaryConsAux N 0 cfg = .error e) :
    buildCons N cfg base = .error e := by
  simp only [buildCons, boundaryCons, bind, Except.bind, h]

theorem buildCons_never_ok {N : ℕ} {cfg : List CohortConfig} {base : ℕ → ℚ}
    (h : ∀ bs, boundaryConsAux N 0 cfg ≠ .ok bs) :
    ∀ cons, buildCons N cfg base ≠ .ok cons := by
  intro cons hc
  simp only [buildCons, boundaryCons, bind, Except.bind] at hc
  cases hb : boundaryConsAux N 0 cfg with
  | error e => rw [hb] at hc; cases hc
  | ok bs => exact h bs hb

/-- Claim C10 (amended): when some cohort's availability set is empty,
validation never returns the pass verdict and boundary-constraint
construction never produces a constraint set, so both are total only on
configurations where every cohort's availability is non-empty; when no
cohort fails the hour-range check, both abort with `ValueError` from
`max()` on the empty set (an earlier out-of-range cohort instead produces
the `SystemExit` fail verdict in validation, or a `KeyError` from the
out-of-range storage index in construction). -/
theorem claim_C10 {N : ℕ} {cfg : List CohortConfig} {base : ℕ → ℚ}
    {i : ℕ} {ev : CohortConfig} (hget : cfg[i]? = some ev)
    (hH : ev.H = []) :
    validate N cfg ≠ .ok () ∧
      (∀ cons, buildCons N cfg base ≠ .ok cons) ∧
      ((∀ e ∈ cfg, ∀ t ∈ e.H, 0 ≤ t ∧ t < (N : ℤ)) →
        validate N cfg = .error .valueError ∧
          buildCons N cfg base = .error .valueError) := by
  have hex : ∃ e ∈ cfg, e.H = [] := ⟨ev, mem_of_get? hget, hH⟩
  refine ⟨?_, buildCons_never_ok (boundaryAux_never_ok hex), fun hok => ?_⟩
  · intro hv
    exact (validate_ok_mem hv (mem_of_get? hget)).1 hH
  · exact ⟨validate_empty_valueError hok hex,
      buildCons_of_boundary_error (boundaryAux_empty_valueError hok hex)⟩

/-- Claim C10, counterexample to the claim as stated: a configuration
containing an empty-availability cohort preceded by an out-of-range cohort
does receive a pass/fail verdict — validation fails with the `SystemExit`
invalid-configuration error, not `ValueError`; and construction run on the
same configuration dies with `KeyError` at the out-of-range storage index
`max(H)+1 = 31` of the earlier cohort, before the empty cohort's `max()`
is reached. -/
theorem claim_C10_counterexample :
    emptyC ∈ [badC, emptyC] ∧ emptyC.H = [] ∧
      validate 24 [badC, emptyC] = .error (.systemExit hourMsg) ∧
      buildCons 24 [badC, emptyC] base1 = .error .keyError := by
  refine ⟨by decide, rfl, rfl, rfl⟩

/-! ## Witnesses: each claim theorem applied at concrete inputs -/

theorem consW_eq : buildCons 2 [c1] base1 = .ok consW := by
  rfl

theorem get_c1 : [c1][0]? = some c1 := rfl

theorem pyMax_c1 : pyMax c1.H = some 0 := rfl

theorem validate_c1 : validate 2 [c1] = .ok () := rfl

theorem validate_c8 : validate 2 [c8] = .ok () := rfl

theorem get_c8 : [c8][0]? = some c8 := rfl

theorem get_emptyC : [emptyC][0]? = some emptyC := rfl

theorem emptyC_H : emptyC.H = [] := rfl

theorem σ1_feasibleFor : FeasibleFor consW 2 1 σ1 := by
  constructor
  · constructor
    · intro i _ t _
      simp only [σ1]
      split <;> norm_num
    · intro t _
      norm_num [σ1]
  · intro c hc
    simp only [consW, List.mem_cons, List.not_mem_nil, or_false] at hc
    rcases hc with rfl | rfl | rfl | rfl | rfl | rfl | rfl | rfl | rfl | rfl <;>
      norm_num [Constraint.holds, σ1, weightedSum]

theorem σ1_feasible : Feasible 2 [c1] base1 σ1 :=
  ⟨consW, consW_eq, σ1_feasibleFor⟩

theorem c8_short : c8.R_max * (numAvail 2 c8 : ℚ) < c8.S_max - c8.S_0 := by
  have h : numAvail 2 c8 = 1 := rfl
  rw [h]
  norm_num [c8]

/-- Witness for C1 at horizon 24 and the one-cohort list `[badC]`. -/
theorem claim_C1_witness :
    (∀ ev ∈ [badC], ev.H ≠ []) ∧
      ((validate 24 [badC] = .ok () ↔
          ∀ ev ∈ [badC], ∀ t ∈ ev.H, 0 ≤ t ∧ t < (24 : ℤ)) ∧
        ((¬ ∀ ev ∈ [badC], ∀ t ∈ ev.H, 0 ≤ t ∧ t < (24 : ℤ)) →
          validate 24 [badC] = .error (.systemExit hourMsg) ∧
            mainModel 24 [badC] base1 = .error (.systemExit hourMsg))) :=
  ⟨by decide, claim_C1 (by decide)⟩

/-- Witness for C2 on the concrete model `consW`. -/
theorem claim_C2_witness :
    buildCons 2 [c1] base1 = .ok consW ∧ [c1][0]? = some c1 ∧
      pyMax c1.H = some 0 ∧
      consW.filter (eqSOf 0) = [Constraint.eqS 0 0 0, Constraint.eqS 0 1 1] :=
  ⟨consW_eq, get_c1, pyMax_c1, claim_C2 consW_eq get_c1 pyMax_c1⟩

/-- Witness for C3 on the concrete model `consW`. -/
theorem claim_C3_witness :
    buildCons 2 [c1] base1 = .ok consW ∧
      ((∀ i t, Constraint.recur i t ∈ consW ↔ i < [c1].length ∧ t < 2) ∧
        ∀ c ∈ consW, (∃ i t, c = Constraint.recur i t) ∨ ∃ u, timesOf c = [u]) :=
  ⟨consW_eq, claim_C3 consW_eq⟩

/-- Witness for C4 on the concrete model `consW` at the unavailable hour 1. -/
theorem claim_C4_witness :
    buildCons 2 [c1] base1 = .ok consW ∧ [c1][0]? = some c1 ∧ 1 < 2 ∧
      (((1 : ℤ) ∉ c1.H → Constraint.eqRZero 0 1 ∈ consW) ∧
        ((1 : ℤ) ∈ c1.H → Constraint.rateBound 0 1 c1.R_max ∈ consW) ∧
        ((1 : ℤ) ∈ c1.H → Constraint.eqRZero 0 1 ∉ consW) ∧
        ∀ σ : Assign, FeasibleFor consW 2 [c1].length σ →
          (1 : ℤ) ∉ c1.H → σ.R 0 1 = 0) :=
  ⟨consW_eq, get_c1, by decide, claim_C4 consW_eq get_c1 (by decide)⟩

/-- Witness for C5 on the concrete model `consW` at hour 0. -/
theorem claim_C5_witness :
    buildCons 2 [c1] base1 = .ok consW ∧ 0 < 2 ∧
      (Constraint.priceEq 0 (base1 0) ([c1].map (·.P)) ∈ consW ∧
        ∀ σ : Assign, FeasibleFor consW 2 [c1].length σ →
          σ.P 0 = base1 0 + weightedSum ([c1].map (·.P)) (fun i => σ.R i 0) ∧
            0 ≤ σ.P 0) :=
  ⟨consW_eq, by decide, claim_C5 consW_eq (by decide)⟩

/-- Witness for C6: the feasible assignment `σ1` with terminal hour 2. -/
theorem claim_C6_witness :
    validate 2 [c1] = .ok () ∧ Feasible 2 [c1] base1 σ1 ∧
      [c1][0]? = some c1 ∧ 2 ≤ 2 ∧
      (0 ≤ σ1.S 0 2 ∧ σ1.S 0 2 ≤ c1.S_max) :=
  ⟨validate_c1, σ1_feasible, get_c1, le_refl 2,
    claim_C6 validate_c1 σ1_feasible get_c1 (le_refl 2)⟩

/-- Witness for C7 raising `c1`'s price influence from 0 to 1. -/
theorem claim_C7_witness :
    [c1][0]? = some c1 ∧ c1.P ≤ 1 ∧
      realizedCost 2 [c1] base1 R7 0 ≤
        realizedCost 2 ([c1].set 0 (setP c1 1)) base1 R7 0 :=
  ⟨get_c1, by norm_num [c1], claim_C7 get_c1 (by norm_num [c1])⟩

/-- Witness for C8: cohort `c8` cannot reach full charge in one hour. -/
theorem claim_C8_witness :
    validate 2 [c8] = .ok () ∧ [c8][0]? = some c8 ∧
      c8.R_max * (numAvail 2 c8 : ℚ) < c8.S_max - c8.S_0 ∧
      ¬ Feasible 2 [c8] base1 σ0 :=
  ⟨validate_c8, get_c8, c8_short, claim_C8 validate_c8 get_c8 c8_short σ0⟩

/-- Witness for C9: a cohort with zero net delivered energy. -/
theorem claim_C9_witness :
    0 < 1 ∧
      ((extractResults 1 1 base1 Rsol0)[0]? =
          some ⟨totalCostOf 1 base1 Rsol0 0, avgPriceOf 1 base1 Rsol0 0⟩ ∧
        (avgPriceOf 1 base1 Rsol0 0 = none ↔ netEnergyOf 1 Rsol0 0 = 0) ∧
        (netEnergyOf 1 Rsol0 0 ≠ 0 →
          avgPriceOf 1 base1 Rsol0 0 =
            some (totalCostOf 1 base1 Rsol0 0 / netEnergyOf 1 Rsol0 0))) :=
  ⟨by decide, claim_C9 (by decide)⟩

/-- Witness for C10 on the one-cohort list `[emptyC]`. -/
theorem claim_C10_witness :
    [emptyC][0]? = some emptyC ∧ emptyC.H = [] ∧
      (validate 5 [emptyC] ≠ .ok () ∧
        (∀ cons, buildCons 5 [emptyC] base1 ≠ .ok cons) ∧
        ((∀ e ∈ [emptyC], ∀ t ∈ e.H, 0 ≤ t ∧ t < (5 : ℤ)) →
          validate 5 [emptyC] = .error .valueError ∧
            buildCons 5 [emptyC] base1 = .error .valueError)) :=
  ⟨get_emptyC, emptyC_H, claim_C10 get_emptyC emptyC_H⟩

end DemandScheduling
